import Mathlib

/-!
Verification of the PdfBuilder document assembly engine (src/builder.rs).

The development shallowly embeds the two algorithmic cores of the program:

* `preprocess_markdown` — the recursive include resolver (builder.rs lines
  215-271), including its visited-set cycle check, the fenced-code-block
  gating of directive recognition, and the path-sandbox check.  The Rust
  function reads files through `std::fs`; the embedding abstracts the disk
  as a function `String → Option String` from cleaned absolute paths to
  file contents (the operating system resolves `.` and `..` segments
  lexically when no symlinks are involved, and resolves relative paths
  against the current working directory, which `run_build` sets to the
  project root).  Rust recursion is modelled with an explicit fuel
  parameter; `PErr.outOfFuel` marks a run that exceeds the fuel and can
  never be produced by a terminating execution.

* `build_toc_hierarchy`, `generate_toc_html`, the heading extraction scan
  of `generate_toc_from_html`, and the CSS-assembly portion of
  `build_html` (builder.rs lines 273-486).  External libraries
  (pulldown-cmark, syntect, scraper's HTML parser, headless-chrome) are
  abstracted as oracle functions; everything the claims speak about is
  translated directly.

Lean's built-in `String` functions (`trim`, `splitOn`, …) are compiled by
well-founded recursion over byte positions and do not reduce inside the
kernel, so the embedding re-implements the string primitives it needs by
structural recursion over `String.data` (the underlying character list).
Each re-implementation states which Rust primitive it models.  All inputs
appearing in the development are ASCII, so the ASCII versions of
whitespace and lower-casing agree with Rust's Unicode versions on every
string we touch.
-/

/-! ## Character-list string primitives -/

/-- Whitespace test used by `str::trim` (ASCII subset). -/
def isWsCh (c : Char) : Bool :=
  c == ' ' || c == '\t' || c == '\n' || c == '\r'

/-- Characters of `s` with leading and trailing whitespace removed. -/
def chTrim (cs : List Char) : List Char :=
  ((cs.dropWhile isWsCh).reverse.dropWhile isWsCh).reverse

/-- Models Rust `str::trim`. -/
def strTrim (s : String) : String := ⟨chTrim s.data⟩

/-- Tests whether `p` is an initial run of `s` (character lists). -/
def leadsWith : List Char → List Char → Bool
  | [], _ => true
  | _ :: _, [] => false
  | p :: ps, c :: cs => p == c && leadsWith ps cs

/-- Models Rust `str::starts_with`. -/
def strStartsWith (s p : String) : Bool := leadsWith p.data s.data

/-- Models Rust `str::ends_with`. -/
def strEndsWith (s p : String) : Bool := leadsWith p.data.reverse s.data.reverse

/-- Models Rust `char::to_ascii_lowercase` (ASCII subset of `to_lowercase`). -/
def lowerCh (c : Char) : Char :=
  if 'A' ≤ c && c ≤ 'Z' then Char.ofNat (c.toNat + 32) else c

/-- Models Rust `str::to_lowercase` on ASCII strings. -/
def strToLower (s : String) : String := ⟨s.data.map lowerCh⟩

/-- Tests whether the pattern `pat` occurs as a contiguous run of `s`;
models Rust `str::contains` with a string pattern. -/
def containsSub (pat : List Char) : List Char → Bool
  | [] => leadsWith pat []
  | c :: rest => leadsWith pat (c :: rest) || containsSub pat rest

/-- Models Rust `str::contains` with a string pattern. -/
def containsStr (s pat : String) : Bool := containsSub pat.data s.data

/-- One pass of Rust `str::replace`: consumed characters are counted by the
`fuel` argument so the definition is structural (the fuel `s.length`
always suffices because each step consumes at least one character). -/
def chReplaceAux (pat rep : List Char) : Nat → List Char → List Char
  | 0, s => s
  | _ + 1, [] => []
  | fuel + 1, c :: rest =>
    if pat ≠ [] && leadsWith pat (c :: rest) then
      rep ++ chReplaceAux pat rep fuel ((c :: rest).drop pat.length)
    else c :: chReplaceAux pat rep fuel rest

/-- Models Rust `str::replace` (non-overlapping, left to right). -/
def strReplace (s pat rep : String) : String :=
  ⟨chReplaceAux pat.data rep.data s.data.length s.data⟩

/-! ## Path primitives

The Rust code manipulates paths as strings via `std::path`.  The helpers
below model exactly the operations `preprocess_markdown` performs:
`Path::parent`, `Path::join`, `path_clean::clean`, and
`Path::starts_with`.  Paths are split on `'/'`; empty components (from
duplicate separators) are discarded, as `std::path::Components` does. -/

/-- Splits a character list on a separator character; `cur` accumulates the
current component. -/
def splitChar (sep : Char) : List Char → List Char → List String
  | [], cur => [⟨cur⟩]
  | c :: rest, cur =>
    if c == sep then ⟨cur⟩ :: splitChar sep rest []
    else splitChar sep rest (cur ++ [c])

/-- Path components of `s`: split on `'/'`, dropping empty components. -/
def comps (s : String) : List String :=
  (splitChar '/' s.data []).filter (fun c => c ≠ "")

/-- Tests whether a path string is absolute. -/
def isAbs (s : String) : Bool :=
  match s.data with
  | '/' :: _ => true
  | _ => false

/-- Tests whether a path string ends with the separator `'/'`. -/
def endsSlash (s : String) : Bool :=
  match s.data.reverse with
  | '/' :: _ => true
  | _ => false

/-- Joins components with `'/'` separators (no leading separator). -/
def joinComps : List String → String
  | [] => ""
  | [c] => c
  | c :: rest => c ++ "/" ++ joinComps rest

/-- Models `Path::parent().unwrap_or(Path::new(""))`: the path with its
final component removed; `""` when there is no parent. -/
def parentStr (s : String) : String :=
  if s = "" then ""
  else
    match isAbs s with
    | true =>
      match comps s with
      | [] => ""
      | cs => "/" ++ joinComps cs.dropLast
    | false => joinComps (comps s).dropLast

/-- Models `Path::join`: an absolute right-hand side replaces the base. -/
def joinStr (base r : String) : String :=
  match isAbs r with
  | true => r
  | false =>
    if base = "" then r
    else
      match endsSlash base with
      | true => base ++ r
      | false => base ++ "/" ++ r

/-- Component pass of `path_clean::clean` (Plan-9 `cleanname` rules):
`.` is dropped; `..` pops a previous component when one exists, is dropped
at the root of an absolute path, and is kept at the front of a relative
path.  `outRev` holds the output components in reverse. -/
def cleanAux (abs : Bool) : List String → List String → List String
  | [], outRev => outRev.reverse
  | c :: rest, outRev =>
    if c = "." then cleanAux abs rest outRev
    else if c = ".." then
      match outRev with
      | o :: os =>
        if o = ".." then cleanAux abs rest (".." :: o :: os)
        else cleanAux abs rest os
      | [] => if abs then cleanAux abs rest [] else cleanAux abs rest [".."]
    else cleanAux abs rest (c :: outRev)

/-- Models `path_clean::clean` on path strings. -/
def cleanPath (s : String) : String :=
  let a := isAbs s
  let cs := cleanAux a (comps s) []
  match a with
  | true => "/" ++ joinComps cs
  | false =>
    match cs with
    | [] => "."
    | _ => joinComps cs

/-- Components as compared by Rust `Path::starts_with`: `.` components are
normalized away (except a leading `.` of a relative path), `..` components
are kept literally — `Path::starts_with` performs no `..` resolution. -/
def normCompsRust (s : String) : List String :=
  let cs := comps s
  if isAbs s then cs.filter (fun c => c ≠ ".")
  else
    match cs with
    | "." :: rest => "." :: rest.filter (fun c => c ≠ ".")
    | _ => cs.filter (fun c => c ≠ ".")

/-- Models Rust `Path::starts_with`: whole-component prefix comparison. -/
def startsWithRust (p q : String) : Bool :=
  (isAbs p == isAbs q) &&
    ((normCompsRust p).take (normCompsRust q).length == normCompsRust q)

/-- Models `fs::read_to_string` issued from the project root as working
directory, on a symlink-free file system `fs` keyed by cleaned absolute
paths: the operating system resolves the path lexically. -/
def readFs (fs : String → Option String) (root p : String) : Option String :=
  fs (cleanPath (joinStr root p))

/-- Models Rust `str::lines`: split on `'\n'`, with no trailing empty line
for a trailing newline (inputs contain no `'\r'`). -/
def rustLines (c : String) : List String :=
  match c.data with
  | [] => []
  | _ =>
    let parts := splitChar '\n' c.data []
    if c.data.getLast? = some '\n' then parts.dropLast else parts

/-! ## The include resolver (`preprocess_markdown`, builder.rs 215-271) -/

/-- Error kinds raised by the resolver.  In the Rust source,
`circularDependency` is `AppError::BuildError("Circular dependency
detected: '{path}'")`, `unauthorized` is `AppError::BuildError
("Unauthorized file access attempt: {path}")` and `sourceNotFound` is
`AppError::SourceNotFound(path)`; the constructors keep the offending
path.  `outOfFuel` is the fuel-exhaustion marker of the embedding and
corresponds to a Rust execution that is still recursing. -/
inductive PErr where
  | circularDependency (path : String)
  | sourceNotFound (path : String)
  | unauthorized (path : String)
  | outOfFuel
deriving DecidableEq, Repr

/-- Matches the anchored include regex `^\s*!include\(([^)]+)\)\s*$`:
after trimming surrounding whitespace the line must be exactly
`!include(` + a non-empty run of non-`')'` characters + `)`; the capture
is returned. -/
def matchInclude (line : String) : Option String :=
  let t := strTrim line
  if strStartsWith t "!include(" && strEndsWith t ")" then
    let inner : String := ⟨(t.data.drop 9).dropLast⟩
    if inner = "" then none
    else if inner.data.contains ')' then none
    else some inner
  else none

/-- Handling of one line outside a fenced code block, from the body of the
line loop of `preprocess_markdown`: an include directive is resolved
relative to the including file's directory, checked against the sandbox,
and recursively expanded (`recurse` stands for the recursive call);
`!newpage` and `!toc` are substituted; any other line passes through
verbatim.  Returns the emitted chunk and the updated visited set. -/
def outsideStep (recurse : String → List String → Except PErr (String × List String))
    (root filePath line : String) (vis : List String) :
    Except PErr (String × List String) :=
  match matchInclude line with
  | some includePathStr =>
    let basePath := parentStr filePath
    let includePath := joinStr basePath includePathStr
    let cleaned := cleanPath includePath
    let canonical := joinStr root cleaned
    match startsWithRust canonical root with
    | false => .error (.unauthorized includePath)
    | true =>
      match recurse includePath vis with
      | .error e => .error e
      | .ok (inc, vis') => .ok (inc ++ "\n", vis')
  | none =>
    if strTrim line = "!newpage" then
      .ok ("<div class=\"page-break\"></div>\n", vis)
    else if strTrim line = "!toc" then
      .ok ("<!--TOC_PLACEHOLDER-->\n", vis)
    else .ok (line ++ "\n", vis)

/-- The line loop of `preprocess_markdown`: a line whose trimmed content
starts with three backticks toggles the fence flag before the line is
classified; inside a fence every line is emitted verbatim, outside a
fence `outsideStep` classifies it.  `acc` is the `full_content`
accumulator. -/
def processLines (recurse : String → List String → Except PErr (String × List String))
    (root filePath : String) :
    List String → Bool → String → List String → Except PErr (String × List String)
  | [], _, acc, vis => .ok (acc, vis)
  | line :: rest, inCode, acc, vis =>
    let inCode' := if strStartsWith (strTrim line) "```" then !inCode else inCode
    match inCode' with
    | false =>
      match outsideStep recurse root filePath line vis with
      | .error e => .error e
      | .ok (chunk, vis') =>
        processLines recurse root filePath rest inCode' (acc ++ chunk) vis'
    | true => processLines recurse root filePath rest inCode' (acc ++ line ++ "\n") vis

/-- The include resolver `preprocess_markdown(project_root, file_path,
visited)`.  The visited set is inserted into before the file is read and
entries are never removed; the updated set is returned, modelling the
`&mut HashSet` threading.  `fuel` bounds the recursion depth of the
embedding. -/
def preprocess_markdown (fs : String → Option String) (projectRoot : String) :
    Nat → String → List String → Except PErr (String × List String)
  | 0, _, _ => .error .outOfFuel
  | fuel + 1, filePath, visited =>
    if filePath ∈ visited then .error (.circularDependency filePath)
    else
      match readFs fs projectRoot filePath with
      | none => .error (.sourceNotFound filePath)
      | some content =>
        processLines (fun p v => preprocess_markdown fs projectRoot fuel p v)
          projectRoot filePath (rustLines content) false "" (filePath :: visited)

/-! ## The table-of-contents builder (builder.rs 187-192, 273-403) -/

/-- The `TocEntry` struct: heading level, title, ordered children. -/
inductive TocEntry where
  | mk (level : Nat) (title : String) (children : List TocEntry)

/-- Heading level of an entry. -/
def TocEntry.level : TocEntry → Nat
  | .mk l _ _ => l

/-- Title of an entry. -/
def TocEntry.title : TocEntry → String
  | .mk _ t _ => t

/-- Children of an entry. -/
def TocEntry.children : TocEntry → List TocEntry
  | .mk _ _ c => c

/-- Appends `c` as the last child of `g` (`grandparent.children.push`). -/
def addChild (g c : TocEntry) : TocEntry :=
  match g with
  | .mk l t cs => .mk l t (cs ++ [c])

/-- The inner `while let Some(last) = stack.last()` loop of
`build_toc_hierarchy` for one incoming entry of level `lvl`: while the top
of the stack has level not less than `lvl` it is popped and attached to
the next stack element, or to the result forest when the stack empties.
The stack is kept top-first (`head` is `stack.last()` of the Rust `Vec`).
Returns the remaining stack and the extended result forest. -/
def popWhile (lvl : Nat) : List TocEntry → List TocEntry → List TocEntry × List TocEntry
  | [], res => ([], res)
  | top :: rest, res =>
    if top.level < lvl then (top :: rest, res)
    else
      match rest with
      | [] => popWhile lvl [] (res ++ [top])
      | g :: rest2 => popWhile lvl (addChild g top :: rest2) res
termination_by st _ => st.length
decreasing_by all_goals simp [addChild]

/-- The final `while let Some(entry) = stack.pop()` drain loop of
`build_toc_hierarchy`: every remaining stack entry is popped and attached
to the next stack element, or to the result forest. -/
def drainStack : List TocEntry → List TocEntry → List TocEntry
  | [], res => res
  | top :: rest, res =>
    match rest with
    | [] => drainStack [] (res ++ [top])
    | g :: rest2 => drainStack (addChild g top :: rest2) res
termination_by st _ => st.length
decreasing_by all_goals simp [addChild]

/-- Body of the `for entry in entries` loop of `build_toc_hierarchy`:
pop as dictated by the incoming entry's level, then push the entry. -/
def buildStep (acc : List TocEntry × List TocEntry) (e : TocEntry) :
    List TocEntry × List TocEntry :=
  let q := popWhile e.level acc.1 acc.2
  (e :: q.1, q.2)

/-- The stack-based outline builder `build_toc_hierarchy(entries)`. -/
def build_toc_hierarchy (entries : List TocEntry) : List TocEntry :=
  let p := entries.foldl buildStep ([], [])
  drainStack p.1 p.2

/-! ## The heading extraction scan of `generate_toc_from_html`
(builder.rs 280-328).

The HTML document model of the `scraper` crate is external; the scan is
embedded over the sequence of heading elements the selector
`h1, h2, h3, h4, h5, h6` yields in document order.  Each element carries
its mapped level (1-6 from the tag name), its concatenated text content,
and whether one of its ancestors is a `section` element. -/

/-- One heading element as seen by the extraction scan. -/
structure HElem where
  level : Nat
  text : String
  inSection : Bool

/-- The renaming test of builder.rs line 306 applied to a trimmed title:
the lowercased title starts with `titre 1` or contains `section`. -/
def renameCond (t : String) : Bool :=
  strStartsWith (strToLower t) "titre 1" || containsStr (strToLower t) "section"

/-- The heading loop of `generate_toc_from_html`: titles are the trimmed
text content; an empty trimmed title is skipped; an `h2` inside a
`section` whose title satisfies `renameCond` is emitted with a synthetic
`section N` title, incrementing the running counter `count`
(`current_section_count`); every other heading is emitted with its
trimmed title. -/
def extractHeadings : List HElem → Nat → List TocEntry
  | [], _ => []
  | e :: rest, count =>
    let title := strTrim e.text
    if title = "" then extractHeadings rest count
    else if e.level == 2 && e.inSection then
      if renameCond title then
        .mk e.level ("section " ++ toString (count + 1)) [] :: extractHeadings rest (count + 1)
      else .mk e.level title [] :: extractHeadings rest count
    else .mk e.level title [] :: extractHeadings rest count

/-! ## The outline renderer (builder.rs 371-403) -/

/-- Recursive body of `generate_toc_entry_html` over a forest: each entry
becomes one `div` with a level-derived class, followed by its children. -/
def genEntriesHtml : List TocEntry → String
  | [] => ""
  | .mk l t cs :: rest =>
    "<div class=\"toc-entry toc-entry-h" ++ toString l ++ "\">\n    <span class=\"toc-entry-title\">"
      ++ t ++ "</span>\n    <span class=\"toc-entry-dots\"></span>\n</div>"
      ++ genEntriesHtml cs ++ genEntriesHtml rest

/-- The renderer `generate_toc_html(entries)`: empty input yields the
empty string (no wrapper); otherwise the `toc` wrapper around the
rendered entries. -/
def generate_toc_html (entries : List TocEntry) : String :=
  match entries with
  | [] => ""
  | _ =>
    "<div class=\"toc\">\n<div class=\"toc-title\">Table des matières</div>\n<div class=\"toc-content\">"
      ++ genEntriesHtml entries ++ "</div>\n</div>"

/-- The pipeline `generate_toc_from_html(html)`, with the HTML parser
abstracted as the oracle `headingsOf` returning the heading elements of
the document in document order. -/
def generate_toc_from_html (headingsOf : String → List HElem) (html : String) : String :=
  generate_toc_html (build_toc_hierarchy (extractHeadings (headingsOf html) 0))

/-! ## The HTML composer `build_html` (builder.rs 405-486) -/

/-- The fields of `Config` that `build_html` reads. -/
structure Config where
  title : String
  author : String
  language : String
  theme : String
  syntax_theme : String
  custom_css : Option String
  filename : String

/-- External collaborators of `build_html`, abstracted as oracles:
`themeFind` is the syntax-theme lookup `ts.themes.get` (the theme value
itself is abstract), `render` is the pulldown-cmark Markdown renderer,
`imgFix` is the image-path regex replacement, `highlight` is the
code-block highlighting pass over the body (fallible), `cssForTheme` is
`css_for_theme_with_class_style` (fallible), and `headingsOf` is the
heading query of the HTML parser. -/
structure Oracles where
  themeFind : String → Option String
  render : String → String
  imgFix : String → String
  highlight : String → String → Except String String
  cssForTheme : String → Except String String
  headingsOf : String → List HElem

/-- The built-in fallback stylesheet `DEFAULT_THEME_CSS`.  Only its
identity matters to the theorems; the 167-line CSS literal is abbreviated
to its opening comment. -/
def defaultThemeCss : String := "/* Simple Dark Theme */"

/-- The custom-CSS block of `build_html` (builder.rs 462-477): when a
non-empty custom-CSS path is configured and readable, its content is
appended to the stylesheet under a `/* Custom CSS */` banner; an
unreadable file is only logged and the stylesheet is left unchanged. -/
def customCssAppend (fsRead : String → Option String) (custom : Option String)
    (css : String) : String :=
  match custom with
  | none => css
  | some p =>
    if p = "" then css
    else
      match fsRead p with
      | some s => css ++ "\n\n/* Custom CSS */\n" ++ s
      | none => css

/-- The composer `build_html(config, markdown_content)` up to its
`fs::write` side effect: returns the final HTML document and the output
path.  Control flow follows the source: fatal syntax-theme lookup,
Markdown rendering, image-path fix-up, fallible highlighting pass, TOC
placeholder substitution, fallible syntax CSS generation, theme CSS with
built-in fallback, optional custom CSS appended only when the configured
path is non-empty and readable — an unreadable custom-CSS file is only
logged and skipped. -/
def build_html (or : Oracles) (fsRead : String → Option String)
    (config : Config) (markdown_content : String) :
    Except String (String × String) :=
  let theme_css_path := "themes/" ++ config.theme ++ "/style.css"
  let output_html_path := "build/" ++ config.filename ++ ".html"
  match or.themeFind config.syntax_theme with
  | none => .error ("Syntax theme '" ++ config.syntax_theme ++ "' not found")
  | some theme =>
    let body0 := or.render markdown_content
    let body1 := or.imgFix body0
    match or.highlight theme body1 with
    | .error e => .error e
    | .ok body2 =>
      let body3 :=
        if containsStr body2 "<!--TOC_PLACEHOLDER-->" then
          strReplace body2 "<!--TOC_PLACEHOLDER-->" (generate_toc_from_html or.headingsOf body2)
        else body2
      match or.cssForTheme theme with
      | .error e => .error e
      | .ok syntax_theme_css =>
        let theme_css :=
          match fsRead theme_css_path with
          | some s => s
          | none => defaultThemeCss
        let final_css0 := theme_css ++ "\n" ++ syntax_theme_css
        let final_css := customCssAppend fsRead config.custom_css final_css0
        let final_html :=
          "<!DOCTYPE html><html lang=\"" ++ config.language
            ++ "\"><head><meta charset=\"UTF-8\"><title>" ++ config.title
            ++ "</title><meta name=\"author\" content=\"" ++ config.author
            ++ "\"><style>" ++ final_css ++ "</style></head><body><main>"
            ++ body3 ++ "</main></body></html>"
        .ok (final_html, output_html_path)

section SanityChecks

example : strTrim "  x " = "x" := rfl
example : matchInclude "!include(chap1.md)" = some "chap1.md" := rfl
example : matchInclude "  !include(a/b.md)  " = some "a/b.md" := rfl
example : matchInclude "!include()" = none := rfl
example : matchInclude "!include(a)b" = none := rfl
example : matchInclude "text" = none := rfl
example : rustLines "a\nb" = ["a", "b"] := rfl
example : rustLines "a\nb\n" = ["a", "b"] := rfl
example : rustLines "" = [] := rfl
example : cleanPath "/proj/../../secret.md" = "/secret.md" := rfl
example : cleanPath "../../secret.md" = "../../secret.md" := rfl
example : cleanPath "chapters/../../x.md" = "../x.md" := rfl
example : parentStr "a.md" = "" := rfl
example : parentStr "./a.md" = "." := rfl
example : parentStr "/proj/a.md" = "/proj" := rfl
example : joinStr "" "./a.md" = "./a.md" := rfl
example : joinStr "." "./a.md" = "././a.md" := rfl
example : startsWithRust "/proj/../../s.md" "/proj" = true := rfl
example : startsWithRust "/s.md" "/proj" = false := rfl
example : startsWithRust "/proj/a/b.md" "/proj" = true := rfl

/-- Test file system: a simple two-file project. -/
def fsSimple : String → Option String := fun p =>
  if p = "/proj/main.md" then some "Book\n!include(chap1.md)"
  else if p = "/proj/chap1.md" then some "Content of chapter 1"
  else none

example :
    preprocess_markdown fsSimple "/proj" 3 "main.md" [] =
      .ok ("Book\nContent of chapter 1\n\n", ["chap1.md", "main.md"]) := rfl

-- evaluation of the stack algorithm (well-founded definitions need simp)
example :
    build_toc_hierarchy
        [.mk 1 "Main" [], .mk 2 "Chapter 1" [], .mk 3 "Section 1" [], .mk 2 "Chapter 2" []] =
      [.mk 1 "Main" [.mk 2 "Chapter 1" [.mk 3 "Section 1" []], .mk 2 "Chapter 2" []]] := by
  simp [build_toc_hierarchy, buildStep, popWhile, drainStack, addChild, TocEntry.level]

example : extractHeadings [⟨2, " My Section ", true⟩] 0 = [.mk 2 "section 1" []] := rfl

end SanityChecks

/-! ## Specification-side reformulation of the line loop (for claim C4)

The claim states that the fence flag is toggled before a line is
classified and that no classification happens while the flag is set.  The
function below is written from those words: the per-line fence flags are
precomputed by `fenceFlags` (toggle first, then the flag governs that same
line), a flagged line is always emitted verbatim with no classification
whatsoever, and an unflagged line is classified by `outsideStep`. -/

/-- Fence flag in force for each line: any line whose trimmed content
starts with three backticks toggles the state, and the toggled state
applies to that very line. -/
def fenceFlags : List String → Bool → List Bool
  | [], _ => []
  | line :: rest, s =>
    let s' := if strStartsWith (strTrim line) "```" then !s else s
    s' :: fenceFlags rest s'

/-- Line loop driven by precomputed fence flags: a flagged line is copied
verbatim, an unflagged line is classified. -/
def processLinesSpec (recurse : String → List String → Except PErr (String × List String))
    (root filePath : String) :
    List String → List Bool → String → List String → Except PErr (String × List String)
  | [], _, acc, vis => .ok (acc, vis)
  | _ :: _, [], acc, vis => .ok (acc, vis)
  | line :: rest, flag :: fr, acc, vis =>
    match flag with
    | true => processLinesSpec recurse root filePath rest fr (acc ++ line ++ "\n") vis
    | false =>
      match outsideStep recurse root filePath line vis with
      | .error e => .error e
      | .ok (chunk, vis') =>
        processLinesSpec recurse root filePath rest fr (acc ++ chunk) vis'

/-! ## Claims C4, C5, C6 -/

/-- Helper: a line whose trimmed content does not start with `!include(`
matches no include directive. -/
theorem matchInclude_eq_none (line : String)
    (h : strStartsWith (strTrim line) "!include(" = false) :
    matchInclude line = none := by
  simp [matchInclude, h]

/-- Claim C4: the fenced-code-block flag is toggled by any line whose
trimmed content starts with three backticks before that line is
classified, and while the flag is set no directive classification occurs:
the line loop coincides with the flag-driven loop that copies every
fence-internal line verbatim, while outside a fence a `!newpage` line is
replaced by the page-break element and a `!toc` line by the placeholder
token. -/
theorem c4_fence_gating :
    (∀ (recurse : String → List String → Except PErr (String × List String))
        (root filePath : String) (lines : List String) (inCode : Bool)
        (acc : String) (vis : List String),
      processLines recurse root filePath lines inCode acc vis =
        processLinesSpec recurse root filePath lines (fenceFlags lines inCode) acc vis) ∧
    (∀ recurse root filePath line vis, strTrim line = "!newpage" →
      outsideStep recurse root filePath line vis =
        .ok ("<div class=\"page-break\"></div>\n", vis)) ∧
    (∀ recurse root filePath line vis, strTrim line = "!toc" →
      outsideStep recurse root filePath line vis =
        .ok ("<!--TOC_PLACEHOLDER-->\n", vis)) := by
  refine ⟨?_, ?_, ?_⟩
  · intro recurse root filePath lines
    induction lines with
    | nil => intro inCode acc vis; rfl
    | cons line rest ih =>
      intro inCode acc vis
      simp only [processLines, processLinesSpec, fenceFlags]
      cases hb : strStartsWith (strTrim line) "```" <;> cases inCode <;>
        simp only [hb, Bool.not_true, Bool.not_false, if_true, if_false, ite_true, ite_false]
      case false.false =>
        cases outsideStep recurse root filePath line vis with
        | error e => rfl
        | ok p => exact ih false (acc ++ p.1) p.2
      case false.true => exact ih true (acc ++ line ++ "\n") vis
      case true.false => exact ih true (acc ++ line ++ "\n") vis
      case true.true =>
        cases outsideStep recurse root filePath line vis with
        | error e => rfl
        | ok p => exact ih false (acc ++ p.1) p.2
  · intro recurse root filePath line vis h
    have hni : matchInclude line = none := by
      apply matchInclude_eq_none
      rw [h]
      decide
    simp only [outsideStep, hni, h]
    rfl
  · intro recurse root filePath line vis h
    have hni : matchInclude line = none := by
      apply matchInclude_eq_none
      rw [h]
      decide
    simp only [outsideStep, hni, h]
    rfl

/-- Witness for C4: the directive substitutions at concrete lines. -/
theorem c4_fence_gating_witness :
    outsideStep (fun _ _ => .error .outOfFuel) "/proj" "main.md" " !newpage " [] =
      .ok ("<div class=\"page-break\"></div>\n", []) ∧
    outsideStep (fun _ _ => .error .outOfFuel) "/proj" "main.md" "!toc" [] =
      .ok ("<!--TOC_PLACEHOLDER-->\n", []) :=
  ⟨c4_fence_gating.2.1 _ "/proj" "main.md" " !newpage " [] rfl,
   c4_fence_gating.2.2 _ "/proj" "main.md" "!toc" [] rfl⟩

/-- Counterexample to claim C5: on the level sequence `[3, 3, 2]` the
outline builder does not produce the claimed two top-level siblings with
the second level-3 node nested under the level-2 node. -/
theorem c5_counterexample :
    build_toc_hierarchy [.mk 3 "A" [], .mk 3 "B" [], .mk 2 "C" []] ≠
      [.mk 3 "A" [], .mk 2 "C" [.mk 3 "B" []]] := by
  intro h
  have h2 := congrArg List.length h
  simp [build_toc_hierarchy, buildStep, popWhile, drainStack, addChild, TocEntry.level] at h2

/-- Claim C5 (amended): feeding the outline builder the flat level
sequence `[3, 3, 2]` yields three top-level siblings in input order, each
with no children — the second level-3 node is popped to the top level
when the level-2 entry arrives, not re-parented under it. -/
theorem c5_no_root_shape :
    build_toc_hierarchy [.mk 3 "A" [], .mk 3 "B" [], .mk 2 "C" []] =
      [.mk 3 "A" [], .mk 3 "B" [], .mk 2 "C" []] := by
  simp [build_toc_hierarchy, buildStep, popWhile, drainStack, addChild, TocEntry.level]

/-- Claim C6: feeding the outline builder the flat level sequence
`[1, 2, 3, 2]` yields a single root (the level-1 node) with exactly two
children — the two level-2 nodes in input order — the first of which has
the level-3 node as its only child. -/
theorem c6_nested_shape :
    build_toc_hierarchy
        [.mk 1 "Main" [], .mk 2 "Chapter 1" [], .mk 3 "Section 1" [], .mk 2 "Chapter 2" []] =
      [.mk 1 "Main" [.mk 2 "Chapter 1" [.mk 3 "Section 1" []], .mk 2 "Chapter 2" []]] := by
  simp [build_toc_hierarchy, buildStep, popWhile, drainStack, addChild, TocEntry.level]

/-! ## Claims C1, C2 -/

/-- Project with an upward-traversal include: `main.md` sits in the
project root `/proj` and includes `../../secret.md`; a secret file exists
at `/secret.md` outside the root. -/
def fsTraversal : String → Option String := fun p =>
  if p = "/proj/main.md" then some "!include(../../secret.md)"
  else if p = "/secret.md" then some "TOP SECRET"
  else none

/-- Claim C1, evaluated at the failing input: when the including file's
path is spelled relative to the project root (exactly how `run_build`
passes `config.source`), the upward-traversal include `../../secret.md`
is **not** rejected — `path_clean::clean` runs before the join with the
root, the leading `..` segments survive, and `Path::starts_with` matches
components without resolving `..` — so the resolver reads the secret file
and splices its content.  With the absolute spelling of the same file the
check rejects the include, which is the behaviour the claim requires for
every spelling. -/
theorem c1_sandbox_escape :
    (∀ n, preprocess_markdown fsTraversal "/proj" (n + 2) "main.md" [] =
      .ok ("TOP SECRET\n\n", ["../../secret.md", "main.md"])) ∧
    (∀ n, preprocess_markdown fsTraversal "/proj" (n + 2) "/proj/main.md" [] =
      .error (.unauthorized "/proj/../../secret.md")) :=
  ⟨fun _ => rfl, fun _ => rfl⟩

/-- Diamond include graph: `a.md` includes `b.md` then `c.md`; both
include `d.md`.  The graph is acyclic and reaches `d.md` twice. -/
def fsDiamond : String → Option String := fun p =>
  if p = "/proj/a.md" then some "!include(b.md)\n!include(c.md)"
  else if p = "/proj/b.md" then some "!include(d.md)"
  else if p = "/proj/c.md" then some "!include(d.md)"
  else if p = "/proj/d.md" then some "D"
  else none

/-- Counterexample to claim C2: resolving the top-level file of the
acyclic diamond with one fresh visited set does not succeed — the second
inclusion of `d.md` is rejected as a circular dependency, because visited
entries are never removed when a file's resolution completes. -/
theorem c2_counterexample :
    preprocess_markdown fsDiamond "/proj" 5 "a.md" [] =
      .error (.circularDependency "d.md") := rfl

/-- Helper: a successful `outsideStep` only ever grows the visited set
(given that the recursive resolver does). -/
theorem outsideStep_vis_mono
    {recurse : String → List String → Except PErr (String × List String)}
    (hrec : ∀ p v out v', recurse p v = .ok (out, v') → v ⊆ v')
    {root filePath line : String} {vis : List String} {chunk : String} {vis' : List String}
    (h : outsideStep recurse root filePath line vis = .ok (chunk, vis')) : vis ⊆ vis' := by
  unfold outsideStep at h
  split at h
  · dsimp only at h
    split at h
    · exact absurd h (by simp)
    · split at h
      · exact absurd h (by simp)
      · rename_i inc v2 heq
        injection h with h1
        injection h1 with _ h2
        subst h2
        exact hrec _ _ _ _ heq
  · split at h
    · injection h with h1
      injection h1 with _ h2
      subst h2
      exact fun a ha => ha
    · split at h
      · injection h with h1
        injection h1 with _ h2
        subst h2
        exact fun a ha => ha
      · injection h with h1
        injection h1 with _ h2
        subst h2
        exact fun a ha => ha

/-- Helper: a successful line loop only ever grows the visited set. -/
theorem processLines_vis_mono
    {recurse : String → List String → Except PErr (String × List String)}
    (hrec : ∀ p v out v', recurse p v = .ok (out, v') → v ⊆ v')
    {root filePath : String} :
    ∀ (lines : List String) (inCode : Bool) (acc : String) (vis : List String)
      (out : String) (vis' : List String),
      processLines recurse root filePath lines inCode acc vis = .ok (out, vis') →
      vis ⊆ vis' := by
  intro lines
  induction lines with
  | nil =>
    intro inCode acc vis out vis' h
    injection h with h1
    injection h1 with _ h2
    subst h2
    exact fun a ha => ha
  | cons line rest ih =>
    intro inCode acc vis out vis' h
    simp only [processLines] at h
    split at h
    · -- outside a fence: one classified chunk, then the rest
      split at h
      · exact absurd h (by simp)
      · rename_i p heq
        exact (outsideStep_vis_mono hrec heq).trans (ih _ _ _ _ _ h)
    · exact ih _ _ _ _ _ h

/-- Helper: a successful resolution inserts the resolved file (and keeps
every previously visited file) in the returned visited set. -/
theorem preprocess_vis_mono (fs : String → Option String) (root : String) :
    ∀ (n : Nat) (path : String) (vis : List String) (out : String) (vis' : List String),
      preprocess_markdown fs root n path vis = .ok (out, vis') →
      vis ⊆ vis' ∧ path ∈ vis' := by
  intro n
  induction n with
  | zero => intro path vis out vis' h; exact absurd h (by simp [preprocess_markdown])
  | succ n ih =>
    intro path vis out vis' h
    simp only [preprocess_markdown] at h
    split at h
    · exact absurd h (by simp)
    · split at h
      · exact absurd h (by simp)
      · have hsub : path :: vis ⊆ vis' :=
          processLines_vis_mono (fun p v o v' hh => (ih p v o v' hh).1) _ _ _ _ _ _ h
        exact ⟨fun a ha => hsub (List.mem_cons_of_mem _ ha), hsub (List.mem_cons_self _ _)⟩

/-- Claim C2 (amended): within one top-level build the visited set only
grows — a successfully resolved file stays in the set — and any attempt
to resolve a path already in the set fails with `CircularDependency`.
Hence in a diamond the second inclusion of the shared file is rejected
even though the graph is acyclic; only include graphs that reach every
file at most once resolve successfully. -/
theorem c2_revisit_rejected :
    (∀ (fs : String → Option String) (root : String) (n : Nat) (path : String)
        (vis : List String), path ∈ vis →
      preprocess_markdown fs root (n + 1) path vis = .error (.circularDependency path)) ∧
    (∀ (fs : String → Option String) (root : String) (n : Nat) (path : String)
        (vis : List String) (out : String) (vis' : List String),
      preprocess_markdown fs root n path vis = .ok (out, vis') → path ∈ vis') := by
  constructor
  · intro fs root n path vis hmem
    simp only [preprocess_markdown, if_pos hmem]
  · intro fs root n path vis out vis' h
    exact (preprocess_vis_mono fs root n path vis out vis' h).2

/-- Witness for C2 (amended): a revisited path is rejected, and a
completed resolution leaves its path in the returned visited set. -/
theorem c2_revisit_rejected_witness :
    preprocess_markdown (fun _ => none) "/proj" 1 "x.md" ["x.md"] =
      .error (.circularDependency "x.md") ∧
    "main.md" ∈ ["chap1.md", "main.md"] :=
  ⟨c2_revisit_rejected.1 (fun _ => none) "/proj" 0 "x.md" ["x.md"] (by simp),
   c2_revisit_rejected.2 fsSimple "/proj" 3 "main.md" [] "Book\nContent of chapter 1\n\n"
     ["chap1.md", "main.md"] rfl⟩

/-! ## Claim C3

`a.md` includes itself under the spelling `./a.md`.  The resolver keys
its visited set on the raw path string: the top-level call runs on
`a.md`, the first recursive call on `./a.md`, the next on `././a.md`, and
so on — `Path::join(parent, "./a.md")` grows the spelling by one `./`
every round, the sandbox check passes every time, and no spelling ever
repeats, so the visited check never fires and the recursion never
terminates.  The family `cyc k` enumerates the spellings. -/

/-- The self-cycle spelled with a `./` prefix. -/
def fsSelfCycle : String → Option String := fun p =>
  if p = "/proj/a.md" then some "!include(./a.md)" else none

/-- The same self-cycle spelled with the identical string `a.md`. -/
def fsSelfSame : String → Option String := fun p =>
  if p = "/proj/a.md" then some "!include(a.md)" else none

/-- Spelling of the cycling file after `k` rounds: `./` repeated `k`
times, then `a.md`. -/
def cyc : Nat → String
  | 0 => "a.md"
  | k + 1 => "./" ++ cyc k

/-- Dot-only parent spellings: `.`, `./.`, `././.`, … -/
def repDots : Nat → String
  | 0 => "."
  | k + 1 => "./" ++ repDots k

/-- Two strings with equal character lists are equal. -/
theorem strDataInj {a b : String} (h : a.data = b.data) : a = b := by
  cases a
  cases b
  exact congrArg String.mk h

/-- String concatenation is associative. -/
theorem strAppendAssoc (a b c : String) : (a ++ b) ++ c = a ++ (b ++ c) := by
  apply strDataInj
  cases a
  cases b
  cases c
  simp [String.data]

/-- Character list of an appended string. -/
theorem strDataAppend (a b : String) : (a ++ b).data = a.data ++ b.data := by
  cases a
  cases b
  simp [String.data]

/-- Character list of `cyc (k + 1)`. -/
theorem cyc_data_succ (k : Nat) : (cyc (k + 1)).data = '.' :: '/' :: (cyc k).data := by
  show ("./" ++ cyc k).data = _
  rw [strDataAppend]
  rfl

/-- Length of the spelling `cyc k`. -/
theorem cyc_len (k : Nat) : (cyc k).data.length = 2 * k + 4 := by
  induction k with
  | zero => rfl
  | succ k ih => rw [cyc_data_succ]; simp [ih]; ring

/-- Distinct rounds produce distinct spellings. -/
theorem cyc_inj {j k : Nat} (h : cyc j = cyc k) : j = k := by
  have := congrArg (fun s => String.data s) h
  have hl := congrArg List.length this
  simp only [cyc_len] at hl
  omega

/-- `cyc k` is never the empty string. -/
theorem cyc_ne_empty (k : Nat) : cyc k ≠ "" := by
  intro h
  have hl := cyc_len k
  rw [h] at hl
  have h0 : ("" : String).data.length = 0 := rfl
  rw [h0] at hl
  omega

/-- `cyc k` is a relative path. -/
theorem isAbs_cyc (k : Nat) : isAbs (cyc k) = false := by
  cases k with
  | zero => rfl
  | succ k =>
    unfold isAbs
    rw [cyc_data_succ]
    rfl

/-- Splitting `cyc k` on `'/'` yields `k` dots and `a.md`. -/
theorem splitChar_cyc (k : Nat) :
    splitChar '/' (cyc k).data [] = List.replicate k "." ++ ["a.md"] := by
  induction k with
  | zero => rfl
  | succ k ih =>
    have step : splitChar '/' ('.' :: '/' :: (cyc k).data) [] =
        "." :: splitChar '/' (cyc k).data [] := rfl
    rw [cyc_data_succ, step, ih]
    rfl

/-- Components of `cyc k`. -/
theorem comps_cyc (k : Nat) : comps (cyc k) = List.replicate k "." ++ ["a.md"] := by
  unfold comps
  rw [splitChar_cyc]
  induction k with
  | zero => rfl
  | succ k ih =>
    rw [List.replicate_succ, List.cons_append, List.filter_cons]
    rw [if_pos (by decide)]
    rw [ih]

/-- Parent of `cyc 0`. -/
theorem parent_cyc_zero : parentStr (cyc 0) = "" := rfl

/-- Joining dot components. -/
theorem joinComps_dots (k : Nat) :
    joinComps (List.replicate (k + 1) ".") = repDots k := by
  induction k with
  | zero => rfl
  | succ k ih =>
    have step : joinComps (List.replicate (k + 1 + 1) ".") =
        ("." ++ "/") ++ joinComps (List.replicate (k + 1) ".") := rfl
    rw [step, ih]
    rfl

/-- Parent of `cyc (k + 1)`. -/
theorem parent_cyc_succ (k : Nat) : parentStr (cyc (k + 1)) = repDots k := by
  unfold parentStr
  rw [if_neg (cyc_ne_empty (k + 1)), isAbs_cyc]
  show joinComps (comps (cyc (k + 1))).dropLast = repDots k
  rw [comps_cyc, List.dropLast_concat]
  exact joinComps_dots k

/-- Character list of `repDots (k + 1)`. -/
theorem repDots_data_succ (k : Nat) :
    (repDots (k + 1)).data = '.' :: '/' :: (repDots k).data := by
  show ("./" ++ repDots k).data = _
  rw [strDataAppend]
  rfl

/-- `repDots k` is never the empty string. -/
theorem repDots_ne_empty (k : Nat) : repDots k ≠ "" := by
  intro h
  have hd := congrArg String.data h
  cases k with
  | zero => exact absurd hd (by decide)
  | succ k =>
    rw [repDots_data_succ] at hd
    exact absurd hd (by simp)

/-- The reversed character list of `repDots k` starts with `'.'`. -/
theorem repDots_rev (k : Nat) : ∃ cs, (repDots k).data.reverse = '.' :: cs := by
  induction k with
  | zero => exact ⟨[], rfl⟩
  | succ k ih =>
    obtain ⟨cs, hcs⟩ := ih
    refine ⟨cs ++ ['/', '.'], ?_⟩
    rw [repDots_data_succ, List.reverse_cons, List.reverse_cons, hcs]
    simp

/-- `repDots k` does not end with a separator. -/
theorem endsSlash_repDots (k : Nat) : endsSlash (repDots k) = false := by
  obtain ⟨cs, hcs⟩ := repDots_rev k
  unfold endsSlash
  rw [hcs]
  rfl

/-- Appending `/./a.md` to `repDots k` produces `cyc (k + 2)`. -/
theorem repDots_join (k : Nat) : (repDots k ++ "/") ++ "./a.md" = cyc (k + 2) := by
  induction k with
  | zero => rfl
  | succ k ih =>
    rw [show repDots (k + 1) = "./" ++ repDots k from rfl]
    rw [strAppendAssoc, strAppendAssoc]
    rw [← strAppendAssoc (repDots k) "/" "./a.md", ih]
    rfl

/-- The include path that one resolution round of the cycling file
constructs from the spelling `cyc k`: exactly `cyc (k + 1)`. -/
theorem join_parent_cyc (k : Nat) : joinStr (parentStr (cyc k)) "./a.md" = cyc (k + 1) := by
  cases k with
  | zero => rfl
  | succ k =>
    rw [parent_cyc_succ]
    unfold joinStr
    rw [show isAbs "./a.md" = false from rfl]
    show (if repDots k = "" then "./a.md"
      else
        match endsSlash (repDots k) with
        | true => repDots k ++ "./a.md"
        | false => repDots k ++ "/" ++ "./a.md") = cyc (k + 1 + 1)
    rw [if_neg (repDots_ne_empty k), endsSlash_repDots]
    show (repDots k ++ "/") ++ "./a.md" = cyc (k + 2)
    exact repDots_join k

/-- Cleaning skips any run of `.` components. -/
theorem cleanAux_dots (ab : Bool) (m : Nat) (rest out : List String) :
    cleanAux ab (List.replicate m "." ++ rest) out = cleanAux ab rest out := by
  induction m with
  | zero => rfl
  | succ m ih =>
    rw [List.replicate_succ, List.cons_append]
    rw [show cleanAux ab ("." :: (List.replicate m "." ++ rest)) out =
      cleanAux ab (List.replicate m "." ++ rest) out from rfl]
    exact ih

/-- Lexical cleaning collapses every spelling `cyc (k + 1)` to `a.md`. -/
theorem clean_cyc_succ (k : Nat) : cleanPath (cyc (k + 1)) = "a.md" := by
  unfold cleanPath
  rw [isAbs_cyc, comps_cyc]
  show (match cleanAux false (List.replicate (k + 1) "." ++ ["a.md"]) [] with
    | [] => "."
    | _ => joinComps (cleanAux false (List.replicate (k + 1) "." ++ ["a.md"]) [])) = "a.md"
  rw [cleanAux_dots]
  rfl

/-- Reading any spelling `cyc k` resolves to the cycling file's content. -/
theorem readFs_cyc (k : Nat) : readFs fsSelfCycle "/proj" (cyc k) = some "!include(./a.md)" := by
  unfold readFs
  have hj : joinStr "/proj" (cyc k) = "/proj/" ++ cyc k := by
    unfold joinStr
    rw [isAbs_cyc]
    show (if ("/proj" : String) = "" then cyc k
      else
        match endsSlash "/proj" with
        | true => "/proj" ++ cyc k
        | false => "/proj" ++ "/" ++ cyc k) = "/proj/" ++ cyc k
    rw [if_neg (by decide)]
    show ("/proj" ++ "/") ++ cyc k = "/proj/" ++ cyc k
    rw [show ("/proj" ++ "/" : String) = "/proj/" from rfl]
  rw [hj]
  have hd : ("/proj/" ++ cyc k).data = '/' :: 'p' :: 'r' :: 'o' :: 'j' :: '/' :: (cyc k).data := by
    rw [strDataAppend]
    rfl
  have habs : isAbs ("/proj/" ++ cyc k) = true := by
    unfold isAbs
    rw [hd]
    rfl
  have hcomps : comps ("/proj/" ++ cyc k) = "proj" :: (List.replicate k "." ++ ["a.md"]) := by
    unfold comps
    rw [hd]
    rw [show splitChar '/' ('/' :: 'p' :: 'r' :: 'o' :: 'j' :: '/' :: (cyc k).data) [] =
      "" :: "proj" :: splitChar '/' (cyc k).data [] from rfl]
    rw [List.filter_cons, List.filter_cons]
    rw [if_neg (by decide), if_pos (by decide)]
    rw [show List.filter (fun c => decide (c ≠ "")) (splitChar '/' (cyc k).data []) =
      comps (cyc k) from rfl]
    rw [comps_cyc]
  unfold cleanPath
  rw [habs, hcomps]
  show fsSelfCycle ("/" ++ joinComps (cleanAux true ("proj" :: (List.replicate k "." ++ ["a.md"])) [])) =
    some "!include(./a.md)"
  rw [show cleanAux true ("proj" :: (List.replicate k "." ++ ["a.md"])) [] =
    cleanAux true (List.replicate k "." ++ ["a.md"]) ["proj"] from rfl]
  rw [cleanAux_dots]
  rfl

/-- Freshness of the spelling family is preserved when the current
spelling is inserted into the visited set. -/
theorem cyc_fresh_step {k : Nat} {vis : List String}
    (h : ∀ j, k ≤ j → cyc j ∉ vis) : ∀ j, k + 1 ≤ j → cyc j ∉ (cyc k :: vis) := by
  intro j hj hmem
  rcases List.mem_cons.mp hmem with h1 | h2
  · have := cyc_inj h1
    omega
  · exact h j (by omega) h2

/-- One resolution round on the spelling `cyc k`: the visited check
passes (the spelling is fresh), the file is read, the sandbox check
passes, and the resolver recurses on the grown spelling `cyc (k + 1)`;
the round's result is the recursive result (its error, or its output
spliced followed by a newline). -/
theorem preprocess_cyc_succ (n k : Nat) (vis : List String) (hk : cyc k ∉ vis) :
    preprocess_markdown fsSelfCycle "/proj" (n + 1) (cyc k) vis =
      match preprocess_markdown fsSelfCycle "/proj" n (cyc (k + 1)) (cyc k :: vis) with
      | .error e => .error e
      | .ok (inc, vis') => .ok ("" ++ (inc ++ "\n"), vis') := by
  simp only [preprocess_markdown]
  rw [if_neg hk, readFs_cyc]
  show processLines _ "/proj" (cyc k) (rustLines "!include(./a.md)") false "" (cyc k :: vis) = _
  rw [show rustLines "!include(./a.md)" = ["!include(./a.md)"] from rfl]
  simp only [processLines, outsideStep]
  rw [show matchInclude "!include(./a.md)" = some "./a.md" from rfl]
  simp only
  rw [join_parent_cyc, clean_cyc_succ]
  rw [show joinStr "/proj" "a.md" = "/proj/a.md" from rfl]
  rw [show startsWithRust "/proj/a.md" "/proj" = true from rfl]
  simp only
  cases preprocess_markdown fsSelfCycle "/proj" n (cyc (k + 1)) (cyc k :: vis) with
  | error e => rfl
  | ok p => rfl

/-- No amount of fuel completes a resolution starting from any spelling
`cyc k` with a visited set fresh for all later spellings: every round
recurses on a longer spelling that is not in the set. -/
theorem cyc_diverges (n : Nat) : ∀ (k : Nat) (vis : List String),
    (∀ j, k ≤ j → cyc j ∉ vis) →
    preprocess_markdown fsSelfCycle "/proj" n (cyc k) vis = .error .outOfFuel := by
  induction n with
  | zero => intro k vis _; rfl
  | succ n ih =>
    intro k vis hfresh
    rw [preprocess_cyc_succ n k vis (hfresh k le_rfl)]
    rw [ih (k + 1) (cyc k :: vis) (cyc_fresh_step hfresh)]

/-- A resolution of `path` in file system `fs` under project root `root`
that never returns within any recursion depth: in the fuel model, every
fuel value is exhausted. -/
def includeDiverges (fs : String → Option String) (root path : String) : Prop :=
  ∀ n, preprocess_markdown fs root n path [] = .error .outOfFuel

/-- Claim C3, evaluated at the failing input: on the self-cycle spelled
`./a.md`, resolution of `a.md` never terminates — each round re-reads the
file under a longer spelling (`./a.md`, `././a.md`, …), the raw-string
visited check never fires, and no fuel suffices — whereas on the same
self-cycle spelled with the identical string `a.md` the resolver does
terminate with `CircularDependency` at any sufficient fuel, confirming
that the check compares raw path strings, not normalized ones. -/
theorem c3_unnormalized_cycle :
    includeDiverges fsSelfCycle "/proj" "a.md" ∧
    (∀ n, preprocess_markdown fsSelfSame "/proj" (n + 2) "a.md" [] =
      .error (.circularDependency "a.md")) := by
  constructor
  · intro n
    exact cyc_diverges n 0 [] (fun j _ h => (List.not_mem_nil (cyc j)) h)
  · intro n
    rfl

/-! ## Claims C7 and C10: invariants of the outline builder

`preorderL` flattens a forest back to the flat `(level, title)` sequence
(parent first, children next, then later siblings); `wfL` checks the
claimed node invariant; `allNodes` collects every node of a forest;
`IsSegment` is contiguous-run containment of flat sequences. -/

/-- Pre-order flattening of a forest. -/
def preorderL : List TocEntry → List (Nat × String)
  | [] => []
  | .mk l t cs :: rest => (l, t) :: (preorderL cs ++ preorderL rest)

/-- Pre-order flattening of a single tree. -/
def preorderT (e : TocEntry) : List (Nat × String) :=
  (e.level, e.title) :: preorderL e.children

/-- Every node of a forest, the roots included. -/
def allNodes : List TocEntry → List TocEntry
  | [] => []
  | .mk l t cs :: rest => .mk l t cs :: (allNodes cs ++ allNodes rest)

/-- Level check of the OutlineNode invariant, forest-wide: every node's
children have strictly greater levels, recursively. -/
def wfL : List TocEntry → Bool
  | [] => true
  | .mk l _ cs :: rest =>
    cs.all (fun c => decide (l < c.level)) && wfL cs && wfL rest

/-- Level check of the OutlineNode invariant at one node. -/
def wfT (e : TocEntry) : Bool :=
  e.children.all (fun c => decide (e.level < c.level)) && wfL e.children

/-- The stack of the outline builder, top first, has strictly decreasing
levels towards the bottom. -/
abbrev stackChain (st : List TocEntry) : Prop :=
  List.Chain' (fun a b => b.level < a.level) st

/-- Contiguous-run containment of flat sequences. -/
def IsSegment (xs ys : List (Nat × String)) : Prop :=
  ∃ as bs, ys = as ++ (xs ++ bs)

theorem segment_trans {xs ys zs : List (Nat × String)}
    (h1 : IsSegment xs ys) (h2 : IsSegment ys zs) : IsSegment xs zs := by
  obtain ⟨a, b, rfl⟩ := h1
  obtain ⟨c, d, rfl⟩ := h2
  exact ⟨c ++ a, b ++ d, by simp⟩

theorem preorderL_cons (e : TocEntry) (rest : List TocEntry) :
    preorderL (e :: rest) = preorderT e ++ preorderL rest := by
  cases e with
  | mk l t cs =>
    rw [preorderL, preorderT]
    simp [TocEntry.level, TocEntry.title, TocEntry.children]

theorem preorderL_append (xs ys : List TocEntry) :
    preorderL (xs ++ ys) = preorderL xs ++ preorderL ys := by
  induction xs with
  | nil => rw [preorderL]; rfl
  | cons e rest ih =>
    rw [List.cons_append, preorderL_cons, preorderL_cons, ih, List.append_assoc]

theorem preorderL_single (e : TocEntry) : preorderL [e] = preorderT e := by
  rw [preorderL_cons, preorderL, List.append_nil]

theorem wfL_cons (e : TocEntry) (rest : List TocEntry) :
    wfL (e :: rest) = (wfT e && wfL rest) := by
  cases e with
  | mk l t cs => rw [wfL]; rfl

theorem wfL_append (xs ys : List TocEntry) :
    wfL (xs ++ ys) = (wfL xs && wfL ys) := by
  induction xs with
  | nil => rw [wfL]; rfl
  | cons e rest ih =>
    rw [List.cons_append, wfL_cons, wfL_cons, ih, Bool.and_assoc]

theorem addChild_level (g c : TocEntry) : (addChild g c).level = g.level := by
  cases g; rfl

theorem preorderT_addChild (g c : TocEntry) :
    preorderT (addChild g c) = preorderT g ++ preorderT c := by
  cases g with
  | mk l t cs =>
    show preorderT (.mk l t (cs ++ [c])) = _
    rw [preorderT, preorderT]
    simp only [TocEntry.level, TocEntry.title, TocEntry.children]
    rw [preorderL_append, preorderL_single, List.cons_append]

theorem wfT_addChild {g c : TocEntry} (hg : wfT g = true) (hc : wfT c = true)
    (hlt : g.level < c.level) : wfT (addChild g c) = true := by
  cases g with
  | mk l t cs =>
    unfold wfT at hg ⊢
    simp only [TocEntry.level, TocEntry.children, addChild] at hg ⊢
    rw [List.all_append, wfL_append]
    simp only [Bool.and_eq_true] at hg ⊢
    refine ⟨⟨hg.1, ?_⟩, hg.2, ?_⟩
    · simp only [List.all_cons, List.all_nil, Bool.and_true]
      exact decide_eq_true hlt
    · rw [wfL_cons, wfL]
      simp [hc]

/-- Every node of a well-formed forest is well formed. -/
theorem allNodes_wf : ∀ (f : List TocEntry), wfL f = true →
    ∀ n ∈ allNodes f, wfT n = true := by
  intro f
  induction f using allNodes.induct with
  | case1 => intro _ n hn; rw [allNodes] at hn; exact absurd hn (List.not_mem_nil n)
  | case2 l t cs rest ih1 ih2 =>
    intro hw n hn
    rw [allNodes] at hn
    rw [wfL] at hw
    simp only [Bool.and_eq_true] at hw
    rcases List.mem_cons.mp hn with rfl | hn'
    · rw [show wfT (TocEntry.mk l t cs) =
        ((cs.all fun c => decide (l < c.level)) && wfL cs) from rfl, hw.1.1, hw.1.2]
      rfl
    · rcases List.mem_append.mp hn' with h1 | h2
      · exact ih1 hw.1.2 n h1
      · exact ih2 hw.2 n h2

/-- The pre-order run of any node of a forest is a contiguous run of the
forest's pre-order flattening. -/
theorem mem_allNodes_segment : ∀ (f : List TocEntry) (n : TocEntry),
    n ∈ allNodes f → IsSegment (preorderT n) (preorderL f) := by
  intro f
  induction f using allNodes.induct with
  | case1 => intro n hn; rw [allNodes] at hn; exact absurd hn (List.not_mem_nil n)
  | case2 l t cs rest ih1 ih2 =>
    intro n hn
    rw [allNodes] at hn
    have hf : preorderL (.mk l t cs :: rest) =
        [(l, t)] ++ (preorderL cs ++ preorderL rest) := by
      rw [preorderL]; rfl
    rcases List.mem_cons.mp hn with rfl | hn'
    · refine ⟨[], preorderL rest, ?_⟩
      rw [hf, preorderT]
      simp [TocEntry.level, TocEntry.title, TocEntry.children]
    · rcases List.mem_append.mp hn' with h1 | h2
      · refine segment_trans (ih1 n h1) ⟨[(l, t)], preorderL rest, ?_⟩
        rw [hf]
      · refine segment_trans (ih2 n h2) ⟨(l, t) :: preorderL cs, [], ?_⟩
        rw [hf]
        simp

/-- Invariant of the inner pop loop: it preserves the level chain of the
stack, well-formedness of stack and result, and the combined pre-order
run of result then stack (bottom to top); afterwards any remaining stack
top has level strictly below the incoming level. -/
theorem popWhile_inv (lvl : Nat) : ∀ (st res : List TocEntry),
    stackChain st → wfL st = true → wfL res = true →
    stackChain (popWhile lvl st res).1 ∧
    wfL (popWhile lvl st res).1 = true ∧
    wfL (popWhile lvl st res).2 = true ∧
    preorderL (popWhile lvl st res).2 ++ preorderL (popWhile lvl st res).1.reverse =
      preorderL res ++ preorderL st.reverse ∧
    ∀ a, (popWhile lvl st res).1.head? = some a → a.level < lvl := by
  intro st res
  induction st, res using popWhile.induct lvl with
  | case1 res =>
    intro _ _ hr
    rw [popWhile]
    refine ⟨List.chain'_nil, by rw [wfL], hr, rfl, ?_⟩
    intro a ha
    exact absurd ha (by simp)
  | case2 top rest res hlt =>
    intro hc hw hr
    rw [popWhile.eq_def]
    dsimp only
    rw [if_pos hlt]
    refine ⟨hc, hw, hr, rfl, ?_⟩
    intro a ha
    rw [List.head?_cons, Option.some_inj] at ha
    rw [← ha]
    exact hlt
  | case3 top res hnlt ih =>
    intro hc hw hr
    rw [popWhile.eq_def]
    dsimp only
    rw [if_neg hnlt]
    have hwt : wfT top = true := by
      rw [wfL_cons, Bool.and_eq_true] at hw
      exact hw.1
    have hrt : wfL (res ++ [top]) = true := by
      rw [wfL_append, wfL_cons]
      simp [hwt, hr, wfL]
    obtain ⟨c1, c2, c3, c4, c5⟩ := ih List.chain'_nil (by rw [wfL]) hrt
    refine ⟨c1, c2, c3, ?_, c5⟩
    rw [c4, preorderL_append]
    simp [preorderL, preorderL_single]
  | case4 top res hnlt g rest2 ih =>
    intro hc hw hr
    rw [popWhile.eq_def]
    dsimp only
    rw [if_neg hnlt]
    obtain ⟨hrel, hcg⟩ := List.chain'_cons.mp hc
    have hc2 : stackChain (addChild g top :: rest2) := by
      obtain ⟨hhead, hrest⟩ := List.chain'_cons'.mp hcg
      exact List.chain'_cons'.mpr
        ⟨fun y hy => by rw [addChild_level]; exact hhead y hy, hrest⟩
    rw [wfL_cons, wfL_cons] at hw
    simp only [Bool.and_eq_true] at hw
    have hw2 : wfL (addChild g top :: rest2) = true := by
      rw [wfL_cons]
      simp [wfT_addChild hw.2.1 hw.1 hrel, hw.2.2]
    obtain ⟨c1, c2, c3, c4, c5⟩ := ih hc2 hw2 hr
    refine ⟨c1, c2, c3, ?_, c5⟩
    rw [c4]
    congr 1
    rw [List.reverse_cons, preorderL_append, preorderL_single, preorderT_addChild]
    rw [List.reverse_cons, List.reverse_cons, preorderL_append, preorderL_append,
      preorderL_single, preorderL_single]
    simp [List.append_assoc]

/-- Invariant of the final drain loop: the result forest is well formed
and its pre-order run is the result-so-far followed by the stack's,
bottom to top. -/
theorem drain_inv : ∀ (st res : List TocEntry),
    stackChain st → wfL st = true → wfL res = true →
    wfL (drainStack st res) = true ∧
    preorderL (drainStack st res) = preorderL res ++ preorderL st.reverse := by
  intro st res
  induction st, res using drainStack.induct with
  | case1 res =>
    intro _ _ hr
    rw [drainStack]
    refine ⟨hr, ?_⟩
    simp [preorderL]
  | case2 top res ih =>
    intro hc hw hr
    rw [drainStack.eq_def]
    dsimp only
    have hwt : wfT top = true := by
      rw [wfL_cons, Bool.and_eq_true] at hw
      exact hw.1
    have hrt : wfL (res ++ [top]) = true := by
      rw [wfL_append, wfL_cons]
      simp [hwt, hr, wfL]
    obtain ⟨c1, c2⟩ := ih List.chain'_nil (by rw [wfL]) hrt
    refine ⟨c1, ?_⟩
    rw [c2, preorderL_append]
    simp [preorderL, preorderL_single]
  | case3 top res g rest2 ih =>
    intro hc hw hr
    rw [drainStack.eq_def]
    dsimp only
    obtain ⟨hrel, hcg⟩ := List.chain'_cons.mp hc
    have hc2 : stackChain (addChild g top :: rest2) := by
      obtain ⟨hhead, hrest⟩ := List.chain'_cons'.mp hcg
      exact List.chain'_cons'.mpr
        ⟨fun y hy => by rw [addChild_level]; exact hhead y hy, hrest⟩
    rw [wfL_cons, wfL_cons] at hw
    simp only [Bool.and_eq_true] at hw
    have hw2 : wfL (addChild g top :: rest2) = true := by
      rw [wfL_cons]
      simp [wfT_addChild hw.2.1 hw.1 hrel, hw.2.2]
    obtain ⟨c1, c2⟩ := ih hc2 hw2 hr
    refine ⟨c1, ?_⟩
    rw [c2]
    congr 1
    rw [List.reverse_cons, preorderL_append, preorderL_single, preorderT_addChild]
    rw [List.reverse_cons, List.reverse_cons, preorderL_append, preorderL_append,
      preorderL_single, preorderL_single]
    simp [List.append_assoc]

/-- Invariant of the entry loop of `build_toc_hierarchy` over flat (leaf)
entries: the stack stays a strictly decreasing level chain of well-formed
nodes, the result forest stays well formed, and the combined pre-order
run of result-then-stack extends by exactly the consumed entries. -/
theorem fold_inv : ∀ (es : List TocEntry) (st res : List TocEntry),
    (∀ e ∈ es, e.children = []) →
    stackChain st → wfL st = true → wfL res = true →
    stackChain (es.foldl buildStep (st, res)).1 ∧
    wfL (es.foldl buildStep (st, res)).1 = true ∧
    wfL (es.foldl buildStep (st, res)).2 = true ∧
    preorderL (es.foldl buildStep (st, res)).2 ++
        preorderL (es.foldl buildStep (st, res)).1.reverse =
      preorderL res ++ preorderL st.reverse ++ preorderL es := by
  intro es
  induction es with
  | nil =>
    intro st res _ hc hw hr
    refine ⟨hc, hw, hr, ?_⟩
    simp [preorderL]
  | cons e rest ih =>
    intro st res he hc hw hr
    rw [List.foldl_cons]
    obtain ⟨c1, c2, c3, c4, c5⟩ := popWhile_inv e.level st res hc hw hr
    have hwt : wfT e = true := by
      unfold wfT
      rw [he e (List.mem_cons_self e rest),
        show wfL ([] : List TocEntry) = true from by rw [wfL]]
      rfl
    have hstep : buildStep (st, res) e =
        (e :: (popWhile e.level st res).1, (popWhile e.level st res).2) := rfl
    rw [hstep]
    have hchain : stackChain (e :: (popWhile e.level st res).1) :=
      List.chain'_cons'.mpr ⟨fun y hy => c5 y hy, c1⟩
    have hwf : wfL (e :: (popWhile e.level st res).1) = true := by
      rw [wfL_cons, hwt, c2]
      rfl
    obtain ⟨d1, d2, d3, d4⟩ :=
      ih (e :: (popWhile e.level st res).1) (popWhile e.level st res).2
        (fun x hx => he x (List.mem_cons_of_mem e hx)) hchain hwf c3
    refine ⟨d1, d2, d3, ?_⟩
    rw [d4, List.reverse_cons, preorderL_append, preorderL_single, preorderL_cons]
    rw [← List.append_assoc, c4]
    simp [List.append_assoc]

/-- Helper shared by the C7 and C10 theorems: on flat (leaf) entries the
outline builder produces a well-formed forest whose pre-order flattening
is exactly the input sequence. -/
theorem build_flatten (es : List TocEntry) (he : ∀ e ∈ es, e.children = []) :
    preorderL (build_toc_hierarchy es) = preorderL es ∧
    wfL (build_toc_hierarchy es) = true := by
  unfold build_toc_hierarchy
  obtain ⟨c1, c2, c3, c4⟩ := fold_inv es [] [] he List.chain'_nil (by rw [wfL]) (by rw [wfL])
  obtain ⟨d1, d2⟩ := drain_inv _ _ c1 c2 c3
  refine ⟨?_, d1⟩
  rw [d2, c4]
  simp [preorderL]

/-- Helper: the pre-order run of leaf entries built from flat pairs is
the original pair sequence. -/
theorem preorderL_map_leaf (es : List (Nat × String)) :
    preorderL (es.map fun p => TocEntry.mk p.1 p.2 []) = es := by
  induction es with
  | nil => rw [List.map_nil, preorderL]
  | cons p rest ih =>
    rw [List.map_cons, preorderL, ih, preorderL]
    rfl

/-- Claim C10: for every flat input sequence of entries, the pre-order
traversal (parent first, children next, later siblings after) of the
forest returned by `build_toc_hierarchy` is exactly the input sequence —
no entry is lost, duplicated, or reordered. -/
theorem c10_preorder_id (es : List (Nat × String)) :
    preorderL (build_toc_hierarchy (es.map fun p => TocEntry.mk p.1 p.2 [])) = es := by
  have he : ∀ e ∈ es.map fun p => TocEntry.mk p.1 p.2 [], e.children = [] := by
    intro e hme
    rcases List.mem_map.mp hme with ⟨p, _, rfl⟩
    rfl
  rw [(build_flatten _ he).1, preorderL_map_leaf]

/-- Claim C7: every node of the forest built from a flat input sequence
satisfies the OutlineNode invariant — each child's level is numerically
strictly greater than its parent's — and the pre-order run of any node's
children is a contiguous run of the input sequence, so siblings under one
parent keep their original document order. -/
theorem c7_outline_invariant (es : List (Nat × String)) :
    ∀ n ∈ allNodes (build_toc_hierarchy (es.map fun p => TocEntry.mk p.1 p.2 [])),
      (∀ c ∈ n.children, n.level < c.level) ∧ IsSegment (preorderL n.children) es := by
  have he : ∀ e ∈ es.map fun p => TocEntry.mk p.1 p.2 [], e.children = [] := by
    intro e hme
    rcases List.mem_map.mp hme with ⟨p, _, rfl⟩
    rfl
  obtain ⟨hflat, hwf⟩ := build_flatten _ he
  intro n hn
  constructor
  · have hwt := allNodes_wf _ hwf n hn
    unfold wfT at hwt
    rw [Bool.and_eq_true, List.all_eq_true] at hwt
    intro c hcm
    exact of_decide_eq_true (hwt.1 c hcm)
  · have hseg := mem_allNodes_segment _ n hn
    have hch : IsSegment (preorderL n.children) (preorderT n) :=
      ⟨[(n.level, n.title)], [], by rw [preorderT]; simp⟩
    have hfl : preorderL (build_toc_hierarchy (es.map fun p => TocEntry.mk p.1 p.2 [])) = es := by
      rw [hflat, preorderL_map_leaf]
    exact hfl ▸ segment_trans hch hseg

/-- Witness for C7: on the input `[(1, r), (2, c)]` the built root node
satisfies both parts of the invariant. -/
theorem c7_outline_invariant_witness :
    (1 : Nat) < (TocEntry.mk 2 "c" [] : TocEntry).level ∧
    IsSegment (preorderL (TocEntry.mk 1 "r" [TocEntry.mk 2 "c" []]).children)
      [(1, "r"), (2, "c")] := by
  have hb : build_toc_hierarchy ([(1, "r"), (2, "c")].map fun p => TocEntry.mk p.1 p.2 []) =
      [TocEntry.mk 1 "r" [TocEntry.mk 2 "c" []]] := by
    simp [build_toc_hierarchy, buildStep, popWhile, drainStack, addChild, TocEntry.level]
  have hmem : (TocEntry.mk 1 "r" [TocEntry.mk 2 "c" []]) ∈
      allNodes (build_toc_hierarchy ([(1, "r"), (2, "c")].map fun p => TocEntry.mk p.1 p.2 [])) := by
    rw [hb, allNodes]
    exact List.mem_cons_self _ _
  have h := c7_outline_invariant [(1, "r"), (2, "c")] (TocEntry.mk 1 "r" [TocEntry.mk 2 "c" []]) hmem
  have hcm : (TocEntry.mk 2 "c" []) ∈ (TocEntry.mk 1 "r" [TocEntry.mk 2 "c" []]).children := by
    show (TocEntry.mk 2 "c" []) ∈ [TocEntry.mk 2 "c" []]
    exact List.mem_cons_self _ _
  exact ⟨h.1 (TocEntry.mk 2 "c" []) hcm, h.2⟩

/-! ## Claims C8, C9 -/

/-- Counterexample to claim C8: an `h2` heading inside a `section`
wrapper whose text contains `section` is emitted with the synthetic title
`section 1`, which differs from the element's trimmed text content. -/
theorem c8_counterexample :
    extractHeadings [⟨2, " My Section ", true⟩] 0 = [TocEntry.mk 2 "section 1" []] ∧
    strTrim " My Section " ≠ "section 1" :=
  ⟨rfl, by decide⟩

/-- Claim C8 (amended): as long as no heading is an `h2` inside a
`section` wrapper whose lowercased trimmed text starts with `titre 1` or
contains `section`, the scan emits — in document order — exactly one
`(level, title)` pair per heading with non-empty trimmed text, the title
being the trimmed text content; empty-trimmed headings are dropped.
(Headings matching the renaming test are instead emitted with synthetic
`section N` titles, as the counterexample shows.) -/
theorem c8_title_extraction :
    ∀ (elems : List HElem) (count : Nat),
      (∀ e ∈ elems, e.level = 2 → e.inSection = true →
        renameCond (strTrim e.text) = false) →
      extractHeadings elems count =
        (elems.filter fun e => strTrim e.text != "").map
          (fun e => TocEntry.mk e.level (strTrim e.text) []) := by
  intro elems
  induction elems with
  | nil => intro _ _; rfl
  | cons e rest ih =>
    intro count h
    have hrest : ∀ x ∈ rest, x.level = 2 → x.inSection = true →
        renameCond (strTrim x.text) = false :=
      fun x hx => h x (List.mem_cons_of_mem _ hx)
    simp only [extractHeadings]
    by_cases ht : strTrim e.text = ""
    · rw [if_pos ht, ih count hrest, List.filter_cons]
      simp [ht]
    · rw [if_neg ht]
      rw [List.filter_cons]
      cases hc2 : (e.level == 2 && e.inSection) with
      | true =>
        have hp : e.level = 2 ∧ e.inSection = true := by
          simp only [Bool.and_eq_true, beq_iff_eq] at hc2
          exact hc2
        rw [h e (List.mem_cons_self e rest) hp.1 hp.2]
        rw [ih count hrest]
        simp [ht]
      | false =>
        rw [ih count hrest]
        simp [ht]

/-- Witness for C8 (amended): a non-renamed heading keeps its trimmed
title and an all-whitespace heading is dropped. -/
theorem c8_title_extraction_witness :
    extractHeadings [⟨1, " Title ", false⟩, ⟨3, "  ", false⟩] 0 =
      [TocEntry.mk 1 "Title" []] := by
  have h := c8_title_extraction [⟨1, " Title ", false⟩, ⟨3, "  ", false⟩] 0 ?_
  · rw [h]
    rfl
  · intro e he h2 _
    rcases List.mem_cons.mp he with rfl | he2
    · exact absurd h2 (by decide)
    · rcases List.mem_cons.mp he2 with rfl | he3
      · exact absurd h2 (by decide)
      · exact absurd he3 (List.not_mem_nil _)

/-- Claim C9: when the configured custom-CSS path is non-empty but the
file cannot be read, `build_html` behaves exactly as if no custom CSS
were configured — no error is raised, the custom-CSS section is omitted
from the concatenated stylesheet, and the build otherwise proceeds
identically. -/
theorem c9_custom_css_not_fatal :
    ∀ (or : Oracles) (fsRead : String → Option String) (config : Config)
      (md p : String),
      config.custom_css = some p → p ≠ "" → fsRead p = none →
      build_html or fsRead config md =
        build_html or fsRead { config with custom_css := none } md := by
  intro or fsRead config md p h1 h2 h3
  obtain ⟨ct, ca, cl, cth, cst, ccss, cfn⟩ := config
  simp only at h1
  subst h1
  have hcc : ∀ css, customCssAppend fsRead (some p) css = customCssAppend fsRead none css := by
    intro css
    show (if p = "" then css
      else
        match fsRead p with
        | some s => css ++ "\n\n/* Custom CSS */\n" ++ s
        | none => css) = css
    rw [if_neg h2, h3]
  unfold build_html
  simp only [hcc]

/-- Witness for C9: a concrete config with a missing custom-CSS file
builds the same document as the config with no custom CSS at all. -/
theorem c9_custom_css_not_fatal_witness :
    build_html ⟨fun _ => some "thm", id, id, fun _ b => .ok b, fun _ => .ok "SYN", fun _ => []⟩
        (fun _ => none) ⟨"T", "A", "en", "dark", "st", some "missing.css", "out"⟩ "body" =
      build_html ⟨fun _ => some "thm", id, id, fun _ b => .ok b, fun _ => .ok "SYN", fun _ => []⟩
        (fun _ => none) ⟨"T", "A", "en", "dark", "st", none, "out"⟩ "body" :=
  c9_custom_css_not_fatal _ _ _ _ "missing.css" rfl (by decide) rfl
